import Mathlib

/-!
Shallow embedding of the libmudtelnet Telnet protocol engine
(src/src/lib.rs, src/src/compatibility.rs, src/src/events.rs).

Bytes are modelled as `Nat` values and byte buffers as `List Nat`.
The `bytes::Bytes` / `BytesMut` buffer types of the source are
zero-copy views; here every buffer is a plain list, which preserves
the byte contents and ordering that the specification talks about.
The file first gives all definitions (translated from the source),
then the supporting lemmas and the claim theorems.
-/

namespace Mudtelnet

/-- Modelled from the spec: the repository's `telnet` module (`telnet.rs`,
`op_command` and `op_option` constants) is not present under `src/`; the
byte values below are the standard Telnet command codes, pinned by the
spec's glossary ("IAC: the Telnet command-introducer byte value 255"),
its examples (`[255, 251, 86]` is IAC WILL 86; `[255, 250, 201, 0x01,
255, 240]` is IAC SB 201 0x01 IAC SE; the DO reply is `[255, 253, 86]`)
and the source doc comment "an IAC (255) GOAHEAD (249) sequence". -/
def IAC : Nat := 255

/-- Modelled from the spec: Telnet DONT command code. -/
def DONT : Nat := 254

/-- Modelled from the spec: Telnet DO command code. -/
def DO : Nat := 253

/-- Modelled from the spec: Telnet WONT command code. -/
def WONT : Nat := 252

/-- Modelled from the spec: Telnet WILL command code. -/
def WILL : Nat := 251

/-- Modelled from the spec: Telnet subnegotiation-start command code. -/
def SB : Nat := 250

/-- Modelled from the spec: Telnet go-ahead command code. -/
def GA : Nat := 249

/-- Modelled from the spec: Telnet no-op command code. -/
def NOP : Nat := 241

/-- Modelled from the spec: Telnet subnegotiation-end command code. -/
def SE : Nat := 240

/-- Modelled from the spec: Telnet end-of-record command code. -/
def EOR : Nat := 239

/-- Modelled from the spec: the MCCP2 compression option code (one of the
spec's "two designated compression-announcement codes"). -/
def MCCP2 : Nat := 86

/-- Modelled from the spec: the MCCP3 compression option code. -/
def MCCP3 : Nat := 87

/-! ## Compatibility table (src/src/compatibility.rs)

An `Entry` is a `u8` bitmask; we model it as a `Nat` carrying the same
bits.  A `Table` is a 256-slot array of entries indexed by option code;
we model it as a total function from option codes to entry values. -/

/-- `Table::ENABLED_LOCAL`: option is locally supported. -/
def ENABLED_LOCAL : Nat := 1

/-- `Table::ENABLED_REMOTE`: option is remotely supported. -/
def ENABLED_REMOTE : Nat := 2

/-- `Table::LOCAL_STATE`: option is currently enabled locally. -/
def LOCAL_STATE : Nat := 4

/-- `Table::REMOTE_STATE`: option is currently enabled remotely. -/
def REMOTE_STATE : Nat := 8

/-- `Table::DEFINED_FLAGS`: union of the four defined flag bits. -/
def DEFINED_FLAGS : Nat := 15

/-- `Entry::local_support`. -/
def local_support (e : Nat) : Bool := e &&& ENABLED_LOCAL == ENABLED_LOCAL

/-- `Entry::remote_support`. -/
def remote_support (e : Nat) : Bool := e &&& ENABLED_REMOTE == ENABLED_REMOTE

/-- `Entry::local_enabled`. -/
def local_enabled (e : Nat) : Bool := e &&& LOCAL_STATE == LOCAL_STATE

/-- `Entry::remote_enabled`. -/
def remote_enabled (e : Nat) : Bool := e &&& REMOTE_STATE == REMOTE_STATE

/-- `Entry::set_local_enabled` (`self.0 |= LOCAL_STATE`). -/
def set_local_enabled (e : Nat) : Nat := e ||| LOCAL_STATE

/-- `Entry::clear_local_enabled` (`self.0 &= !LOCAL_STATE`; on `u8`,
`!4 = 251`). -/
def clear_local_enabled (e : Nat) : Nat := e &&& 251

/-- `Entry::set_remote_enabled` (`self.0 |= REMOTE_STATE`). -/
def set_remote_enabled (e : Nat) : Nat := e ||| REMOTE_STATE

/-- `Entry::clear_remote_enabled` (`self.0 &= !REMOTE_STATE`; on `u8`,
`!8 = 247`). -/
def clear_remote_enabled (e : Nat) : Nat := e &&& 247

/-- The compatibility table: entry value per option code. -/
abbrev Table := Nat → Nat

/-- The default table: all flags clear for every option. -/
def emptyTable : Table := fun _ => 0

/-- Point update of a table, modelling `options[opt as usize] = entry`. -/
def tableSet (t : Table) (o v : Nat) : Table := fun x => if x = o then v else t x

/-- `Table::from_options`: fold the `(option, raw byte)` pairs over the
default table, masking each raw byte to the four defined flag bits. -/
def from_options (values : List (Nat × Nat)) : Table :=
  values.foldl (fun t p => tableSet t p.1 (p.2 &&& DEFINED_FLAGS)) emptyTable

/-- `Table::reset_states`: clear both enabled bits of every entry. -/
def reset_states (t : Table) : Table :=
  fun o => clear_remote_enabled (clear_local_enabled (t o))

/-! ## Events (src/src/events.rs) -/

/-- The `Event` enum (`TelnetEvents`).  `iac` carries the command byte of a
2-byte IAC sequence; `negotiation` carries command and option of a 3-byte
sequence; the buffer-carrying variants carry raw byte lists. -/
inductive Event where
  | iac (command : Nat)
  | negotiation (command : Nat) (opt : Nat)
  | subnegotiation (opt : Nat) (buffer : List Nat)
  | dataReceive (buffer : List Nat)
  | lineReceive (buffer : List Nat)
  | dataSend (buffer : List Nat)
  | decompressImmediate (buffer : List Nat)
  deriving DecidableEq, Repr

/-- The internal `EventType` enum of `lib.rs`: classified sub-spans of the
input buffer produced by `extract_event_data`. -/
inductive EventType where
  | none (buffer : List Nat)
  | iac (buffer : List Nat)
  | subNegotiation (buffer : List Nat) (remaining : Option (List Nat))
  | neg (buffer : List Nat)
  deriving DecidableEq, Repr

/-- The `Parser` struct: compatibility table, line-deframing toggle,
unparsed-input buffer and line-accumulation buffer. -/
structure Parser where
  options : Table
  deframe_lines : Bool
  buffer : List Nat
  line_buffer : List Nat

/-- `Parser::with_support` (buffer capacities carry no meaning here). -/
def withSupport (t : Table) : Parser :=
  { options := t, deframe_lines := false, buffer := [], line_buffer := [] }

/-! ## Escape codec (Parser::escape_iac / Parser::unescape_iac) -/

/-- `Parser::escape_iac`: every byte is emitted, and an IAC byte is
emitted a second time. -/
def escape_iac : List Nat → List Nat
  | [] => []
  | b :: rest =>
      if b = IAC then b :: b :: escape_iac rest else b :: escape_iac rest

/-- The two scanning states of `Parser::unescape_iac`. -/
inductive UState where
  | normal
  | iacSeen

/-- The scanning loop of `Parser::unescape_iac`: in `normal`, an IAC is
emitted and moves to `iacSeen`; in `iacSeen`, an IAC is consumed silently;
any other byte is emitted and returns to `normal`. -/
def unescapeGo : UState → List Nat → List Nat
  | _, [] => []
  | UState.normal, v :: rest =>
      if v = IAC then v :: unescapeGo UState.iacSeen rest
      else v :: unescapeGo UState.normal rest
  | UState.iacSeen, v :: rest =>
      if v = IAC then unescapeGo UState.normal rest
      else v :: unescapeGo UState.normal rest

/-- `Parser::unescape_iac`. -/
def unescape_iac (data : List Nat) : List Nat := unescapeGo UState.normal data

/-! ## Line deframer (Parser::deframe_lines, Parser::flush_line) -/

/-- Search for the first 2-byte end-of-line window (`\r\n` or, for
Aardwolf compatibility, `\n\r`) in the line buffer, as the
`windows(2).position(..)` call does. -/
def findEol : List Nat → Option Nat
  | a :: b :: rest =>
      if (a = 13 ∧ b = 10) ∨ (a = 10 ∧ b = 13) then Option.some 0
      else (findEol (b :: rest)).map (· + 1)
  | _ => Option.none

/-- The `while` loop of `Parser::deframe_lines`, driven by structural
fuel: every found terminator consumes at least 2 bytes of the buffer, so
fuel equal to the buffer length is never exhausted (with no terminator
left, both the fuel-zero and the search-failed branches return the buffer
unchanged). -/
def deframeLinesGo : Nat → List Nat → List Event × List Nat
  | 0, lb => ([], lb)
  | Nat.succ fuel, lb =>
      match findEol lb with
      | Option.none => ([], lb)
      | Option.some i =>
          let r := deframeLinesGo fuel (lb.drop (i + 2))
          (Event.lineReceive (lb.take i) :: r.1, r.2)

/-- `Parser::deframe_lines`: repeatedly split the line buffer at the first
end-of-line window, emitting the bytes before it as a `LineReceive` event
and discarding the 2-byte terminator; returns the events and the bytes
left in the line buffer. -/
def deframeLines (lb : List Nat) : List Event × List Nat :=
  deframeLinesGo lb.length lb

/-- `Parser::flush_line`: `None` when the line buffer is empty, otherwise
the whole line buffer is returned and emptied. -/
def flush_line (p : Parser) : Option (List Nat) × Parser :=
  if p.line_buffer = [] then (Option.none, p)
  else (Option.some p.line_buffer, { p with line_buffer := [] })

/-! ## Stream classifier (Parser::extract_event_data)

The source iterates over an immutable snapshot of the buffer with an
index `cmd_begin` marking the start of the current span, pushing
`buf.slice(cmd_begin..)`-style views.  Here `acc` carries the bytes of
the current span (the bytes from `cmd_begin` to the cursor), which is
pointwise the same data; `acc = []` is `cmd_begin == index` at the
span-flush transition and `cmd_begin == buf.len()` at the final flush. -/

/-- The classifier's 6-state machine (`State` in `extract_event_data`). -/
inductive XState where
  | normal
  | iacSt
  | negSt
  | subSt
  | subOpt (opt : Nat)
  | subIac (opt : Nat)
  deriving DecidableEq, Repr

/-- The classifier loop of `extract_event_data`, including the final
flush of an unterminated trailing span (`cmd_begin < buf.len()`). -/
def extractGo : XState → List Nat → List Nat → List EventType
  | st, acc, [] =>
      if acc = [] then []
      else
        match st with
        | XState.subSt | XState.subOpt _ | XState.subIac _ =>
            [EventType.subNegotiation acc Option.none]
        | _ => [EventType.none acc]
  | XState.normal, acc, val :: rest =>
      if val = IAC then
        if acc = [] then extractGo XState.iacSt [IAC] rest
        else EventType.none acc :: extractGo XState.iacSt [IAC] rest
      else extractGo XState.normal (acc ++ [val]) rest
  | XState.iacSt, acc, val :: rest =>
      if val = IAC then extractGo XState.normal (acc ++ [val]) rest
      else if val = GA ∨ val = EOR ∨ val = NOP then
        EventType.iac (acc ++ [val]) :: extractGo XState.normal [] rest
      else if val = SB then extractGo XState.subSt (acc ++ [val]) rest
      else extractGo XState.negSt (acc ++ [val]) rest
  | XState.negSt, acc, val :: rest =>
      EventType.neg (acc ++ [val]) :: extractGo XState.normal [] rest
  | XState.subSt, acc, val :: rest =>
      extractGo (XState.subOpt val) (acc ++ [val]) rest
  | XState.subOpt opt, acc, val :: rest =>
      if val = IAC then extractGo (XState.subIac opt) (acc ++ [val]) rest
      else extractGo (XState.subOpt opt) (acc ++ [val]) rest
  | XState.subIac opt, acc, val :: rest =>
      if val = IAC then extractGo (XState.subIac opt) (acc ++ [val]) rest
      else if val = SE then
        if opt = MCCP2 ∨ opt = MCCP3 then
          [EventType.subNegotiation (acc ++ [val]) (Option.some rest)]
        else
          EventType.subNegotiation (acc ++ [val]) Option.none ::
            extractGo XState.normal [] rest
      else extractGo (XState.subOpt opt) (acc ++ [val]) rest

/-! ## Negotiation engine (Parser::process_negotiation) -/

/-- `Parser::process_negotiation`: priority-ordered guards over the
command and the table entry of the option; returns the updated table and
the emitted events. -/
def process_negotiation (t : Table) (command opt : Nat) : Table × List Event :=
  let entry := t opt
  if command = WILL ∧ (remote_support entry && !remote_enabled entry) = true then
    (tableSet t opt (set_remote_enabled entry),
     [Event.dataSend [IAC, DO, opt], Event.negotiation command opt])
  else if command = WILL ∧ remote_support entry = false then
    (t, [Event.dataSend [IAC, DONT, opt]])
  else if command = WONT ∧ remote_enabled entry = true then
    (tableSet t opt (clear_remote_enabled entry),
     [Event.dataSend [IAC, DONT, opt], Event.negotiation command opt])
  else if command = DO ∧ (local_support entry && !local_enabled entry) = true then
    (tableSet t opt (set_remote_enabled (set_local_enabled entry)),
     [Event.dataSend [IAC, WILL, opt], Event.negotiation command opt])
  else if command = DO ∧ (!local_support entry || !local_enabled entry) = true then
    (t, [Event.dataSend [IAC, WONT, opt]])
  else if command = DONT ∧ local_enabled entry = true then
    (tableSet t opt (clear_local_enabled entry),
     [Event.dataSend [IAC, WONT, opt], Event.negotiation command opt])
  else if command = DONT ∨ command = WONT then
    (t, [Event.negotiation command opt])
  else (t, [])

/-! ## Event interpretation (Parser::process) -/

/-- The plain-data arm of the span match in `Parser::process`
(`(Some(c), _, _) if *c != IAC`): the bytes are appended to the line
buffer, then either deframed or emitted as a `DataReceive`. -/
def processData (p : Parser) (buffer : List Nat) : Parser × List Event :=
  let lb := p.line_buffer ++ buffer
  if p.deframe_lines then
    let r := deframeLines lb
    ({ p with line_buffer := r.2 }, r.1)
  else ({ p with line_buffer := lb }, [Event.dataReceive buffer])

/-- One iteration of the `for event in events` loop of `Parser::process`:
interpret a classified sub-span, possibly mutating the parser (table,
line buffer, or push-back into the unparsed-input buffer) and emitting
events.  The `None`/`Iac`/`Neg` spans go through the source's match on
`(buffer.first(), buffer.get(1), buffer.get(2))` with its value guards. -/
def processOne (p : Parser) (et : EventType) : Parser × List Event :=
  match et with
  | EventType.none buffer | EventType.iac buffer | EventType.neg buffer =>
      match buffer.head?, buffer[1]?, buffer[2]? with
      | Option.some b0, Option.some command, Option.none =>
          if b0 = IAC then
            if command ≠ SE then (p, [Event.iac command]) else (p, [])
          else processData p buffer
      | Option.some b0, Option.some command, Option.some opt =>
          if b0 = IAC then
            let r := process_negotiation p.options command opt
            ({ p with options := r.1 }, r.2)
          else processData p buffer
      | Option.some b0, Option.none, Option.none =>
          if b0 ≠ IAC then processData p buffer else (p, [])
      | _, _, _ => (p, [])
  | EventType.subNegotiation buffer remaining =>
      let len := buffer.length
      if buffer.getD (len - 2) 0 = IAC ∧ buffer.getD (len - 1) 0 = SE then
        let e := p.options (buffer.getD 2 0)
        if local_support e = true ∧ local_enabled e = true ∧ 3 ≤ len - 2 then
          (p, Event.subnegotiation (buffer.getD 2 0)
                ((buffer.drop 3).take (len - 2 - 3)) ::
              (match remaining with
               | Option.some rbuf => [Event.decompressImmediate rbuf]
               | Option.none => []))
        else (p, [])
      else ({ p with buffer := p.buffer ++ buffer }, [])

/-- The `for` loop of `Parser::process` over all classified sub-spans. -/
def processEvents (p : Parser) : List EventType → Parser × List Event
  | [] => (p, [])
  | et :: rest =>
      let r := processOne p et
      let r2 := processEvents r.1 rest
      (r2.1, r.2 ++ r2.2)

/-- `Parser::process`: classify the whole unparsed-input buffer (the
buffer is emptied by the `split`), then interpret each sub-span. -/
def process (p : Parser) : Parser × List Event :=
  let ets := extractGo XState.normal [] p.buffer
  processEvents { p with buffer := [] } ets

/-- `Parser::receive`: append the new bytes to the unparsed-input buffer
and process it. -/
def receive (p : Parser) (data : List Nat) : Parser × List Event :=
  process { p with buffer := p.buffer ++ data }

/-! ## Outbound helpers -/

/-- `Parser::negotiate`: a `DataSend` carrying the 3-byte serialization of
a `Negotiation`. -/
def negotiate (command opt : Nat) : Event := Event.dataSend [IAC, command, opt]

/-- `Parser::_will`. -/
def _will (p : Parser) (opt : Nat) : Parser × Option Event :=
  let e := p.options opt
  if !local_support e || local_enabled e then (p, Option.none)
  else ({ p with options := tableSet p.options opt (set_local_enabled e) },
        Option.some (negotiate WILL opt))

/-- `Parser::_wont`. -/
def _wont (p : Parser) (opt : Nat) : Parser × Option Event :=
  let e := p.options opt
  if !local_enabled e then (p, Option.none)
  else ({ p with options := tableSet p.options opt (clear_local_enabled e) },
        Option.some (negotiate WONT opt))

/-- `Parser::_do`. -/
def _do (p : Parser) (opt : Nat) : Parser × Option Event :=
  let e := p.options opt
  if !remote_support e || remote_enabled e then (p, Option.none)
  else ({ p with options := tableSet p.options opt (set_remote_enabled e) },
        Option.some (negotiate DO opt))

/-- `Parser::_dont`: note that, unlike `_wont`, it does not mutate the
table. -/
def _dont (p : Parser) (opt : Nat) : Parser × Option Event :=
  if !remote_enabled (p.options opt) then (p, Option.none)
  else (p, Option.some (negotiate DONT opt))

/-! ## A span grammar for complete, valid input sequences

Used to state the fragmentation claim: a complete, valid byte sequence is
a concatenation of finished protocol spans. -/

/-- One finished protocol span: a run of plain data, a 2-byte command, a
3-byte negotiation, or a terminated subnegotiation block. -/
inductive Span where
  | data (d : List Nat)
  | cmd (c : Nat)
  | neg (c o : Nat)
  | sub (opt : Nat) (payload : List Nat)
  deriving DecidableEq, Repr

/-- The bytes of a span on the wire. -/
def spanBytes : Span → List Nat
  | Span.data d => d
  | Span.cmd c => [IAC, c]
  | Span.neg c o => [IAC, c, o]
  | Span.sub opt payload => [IAC, SB, opt] ++ payload ++ [IAC, SE]

/-- The bytes of a span sequence. -/
def flat : List Span → List Nat
  | [] => []
  | s :: r => spanBytes s ++ flat r

/-- The classified sub-span the classifier produces for a finished span. -/
def toET : Span → EventType
  | Span.data d => EventType.none d
  | Span.cmd c => EventType.iac [IAC, c]
  | Span.neg c o => EventType.neg [IAC, c, o]
  | Span.sub opt payload =>
      EventType.subNegotiation ([IAC, SB, opt] ++ payload ++ [IAC, SE])
        Option.none

/-- A subnegotiation payload that does not close the block early: no IAC
byte immediately followed by SE. -/
def noIacSe : List Nat → Bool
  | a :: b :: rest => !(a == IAC && b == SE) && noIacSe (b :: rest)
  | _ => true

/-- Whether a span is a plain-data run. -/
def isData : Span → Bool
  | Span.data _ => true
  | _ => false

/-- Well-formedness of one span: data runs are nonempty and IAC-free;
commands are the three 2-byte command codes; negotiation commands are
none of IAC, the 2-byte codes, or SB; subnegotiations are not
MCCP-tagged (the claim's excluded short-circuit) and their payload does
not close the block early. -/
def wfSpan : Span → Bool
  | Span.data d => !(d == []) && d.all (fun b => !(b == IAC))
  | Span.cmd c => (c == GA) || (c == EOR) || (c == NOP)
  | Span.neg c _ =>
      !(c == IAC) && !(c == GA) && !(c == EOR) && !(c == NOP) && !(c == SB)
  | Span.sub opt payload =>
      !(opt == MCCP2) && !(opt == MCCP3) && noIacSe payload

/-- Well-formedness of a span sequence: every span well-formed and no two
adjacent data runs (adjacent data runs would be classified as one merged
run). -/
def wfSpans : List Span → Bool
  | [] => true
  | [s] => wfSpan s
  | s :: s' :: r => wfSpan s && !(isData s && isData s') && wfSpans (s' :: r)

/-! ## Bitmask lemmas -/

theorem land_land (x a b : Nat) : x &&& a &&& b = x &&& (a &&& b) := by
  apply Nat.eq_of_testBit_eq
  intro i
  rw [Nat.testBit_land, Nat.testBit_land, Nat.testBit_land, Nat.testBit_land,
    Bool.and_assoc]

theorem lor_land_self (x m : Nat) : (x ||| m) &&& m = m := by
  apply Nat.eq_of_testBit_eq
  intro i
  rw [Nat.testBit_land, Nat.testBit_lor]
  cases Nat.testBit x i <;> cases Nat.testBit m i <;> rfl

theorem lor_land_distrib (x m k : Nat) :
    (x ||| m) &&& k = (x &&& k) ||| (m &&& k) := by
  apply Nat.eq_of_testBit_eq
  intro i
  rw [Nat.testBit_lor, Nat.testBit_land, Nat.testBit_land, Nat.testBit_land,
    Nat.testBit_lor]
  cases Nat.testBit x i <;> cases Nat.testBit m i <;> cases Nat.testBit k i <;> rfl

theorem land_zero (x : Nat) : x &&& 0 = 0 := by
  apply Nat.eq_of_testBit_eq
  intro i
  rw [Nat.testBit_land]
  have h0 : Nat.testBit 0 i = false := Nat.zero_testBit i
  rw [h0, Bool.and_false]

theorem local_enabled_set_local (e : Nat) :
    local_enabled (set_local_enabled e) = true := by
  simp [local_enabled, set_local_enabled, LOCAL_STATE, lor_land_self]

theorem remote_enabled_set_remote (e : Nat) :
    remote_enabled (set_remote_enabled e) = true := by
  simp [remote_enabled, set_remote_enabled, REMOTE_STATE, lor_land_self]

theorem local_enabled_clear_local (e : Nat) :
    local_enabled (clear_local_enabled e) = false := by
  have h : e &&& 251 &&& 4 = 0 := by
    rw [land_land]
    have : (251 &&& 4 : Nat) = 0 := by decide
    rw [this, land_zero]
  simp [local_enabled, clear_local_enabled, LOCAL_STATE, h]

theorem remote_enabled_clear_remote (e : Nat) :
    remote_enabled (clear_remote_enabled e) = false := by
  have h : e &&& 247 &&& 8 = 0 := by
    rw [land_land]
    have : (247 &&& 8 : Nat) = 0 := by decide
    rw [this, land_zero]
  simp [remote_enabled, clear_remote_enabled, REMOTE_STATE, h]

/-! ## Classifier stepping lemmas -/

theorem noIacSe_tail (a : Nat) (p : List Nat) (h : noIacSe (a :: p) = true) :
    noIacSe p = true := by
  cases p with
  | nil => rfl
  | cons b r =>
      simp only [noIacSe, Bool.and_eq_true] at h
      exact h.2

theorem noIacSe_head (b : Nat) (r : List Nat)
    (hp : noIacSe (IAC :: b :: r) = true) : b ≠ SE := by
  simp only [noIacSe, Bool.and_eq_true, Bool.not_eq_true'] at hp
  have h1 := hp.1
  simp only [beq_self_eq_true, Bool.true_and, beq_eq_false_iff_ne, ne_eq] at h1
  exact h1

theorem extractGo_data :
    ∀ (d acc rest : List Nat), d.all (fun b => !(b == IAC)) = true →
      extractGo XState.normal acc (d ++ rest) =
        extractGo XState.normal (acc ++ d) rest := by
  intro d
  induction d with
  | nil => intro acc rest _; simp
  | cons b d' ih =>
      intro acc rest h
      rw [List.all_cons, Bool.and_eq_true] at h
      have hb : ¬ (b = IAC) := by
        have h1 := h.1
        rw [Bool.not_eq_true', beq_eq_false_iff_ne] at h1
        exact h1
      simp only [List.cons_append, extractGo, if_neg hb, List.append_eq]
      rw [ih (acc ++ [b]) rest h.2]
      simp [List.append_assoc]

theorem extractGo_cmd (c : Nat) (hc : c = GA ∨ c = EOR ∨ c = NOP)
    (rest : List Nat) :
    extractGo XState.normal [] (IAC :: c :: rest) =
      EventType.iac [IAC, c] :: extractGo XState.normal [] rest := by
  rcases hc with h | h | h <;> subst h <;>
    simp [extractGo, IAC, GA, EOR, NOP, SB]

theorem extractGo_neg (c o : Nat) (rest : List Nat) (h1 : c ≠ IAC)
    (h2 : c ≠ GA) (h3 : c ≠ EOR) (h4 : c ≠ NOP) (h5 : c ≠ SB) :
    extractGo XState.normal [] (IAC :: c :: o :: rest) =
      EventType.neg [IAC, c, o] :: extractGo XState.normal [] rest := by
  simp [extractGo, h1, h2, h3, h4, h5]

theorem extractGo_subPayload (opt : Nat) (hm : ¬(opt = MCCP2 ∨ opt = MCCP3)) :
    ∀ (p : List Nat) (st : XState) (acc rest : List Nat),
      (st = XState.subOpt opt ∨ st = XState.subIac opt) →
      noIacSe p = true →
      (st = XState.subIac opt → p.head? ≠ Option.some SE) →
      extractGo st acc (p ++ IAC :: SE :: rest) =
        EventType.subNegotiation (acc ++ p ++ [IAC, SE]) Option.none ::
          extractGo XState.normal [] rest := by
  intro p
  induction p with
  | nil =>
      intro st acc rest hst _ _
      rcases hst with h | h <;> subst h <;> simp [extractGo, IAC, SE, hm]
  | cons a p' ih =>
      intro st acc rest hst hp hhead
      have hp' : noIacSe p' = true := noIacSe_tail a p' hp
      rcases hst with h | h <;> subst h
      · by_cases ha : a = IAC
        · subst ha
          have hh : XState.subIac opt = XState.subIac opt →
              p'.head? ≠ Option.some SE := by
            intro _
            cases p' with
            | nil => simp
            | cons b r =>
                have hb := noIacSe_head b r hp
                simp [hb]
          rw [List.cons_append]
          rw [show extractGo (XState.subOpt opt) acc
                (IAC :: (p' ++ IAC :: SE :: rest)) =
              extractGo (XState.subIac opt) (acc ++ [IAC])
                (p' ++ IAC :: SE :: rest) from by simp [extractGo]]
          rw [ih (XState.subIac opt) (acc ++ [IAC]) rest (Or.inr rfl) hp' hh]
          simp [List.append_assoc]
        · rw [List.cons_append]
          rw [show extractGo (XState.subOpt opt) acc
                (a :: (p' ++ IAC :: SE :: rest)) =
              extractGo (XState.subOpt opt) (acc ++ [a])
                (p' ++ IAC :: SE :: rest) from by simp [extractGo, ha]]
          rw [ih (XState.subOpt opt) (acc ++ [a]) rest (Or.inl rfl) hp'
            (by intro hcon; exact absurd hcon (by simp))]
          simp [List.append_assoc]
      · have hane : a ≠ SE := by
          have hh := hhead rfl
          intro hae
          apply hh
          rw [hae]
          rfl
        by_cases ha : a = IAC
        · subst ha
          have hh : XState.subIac opt = XState.subIac opt →
              p'.head? ≠ Option.some SE := by
            intro _
            cases p' with
            | nil => simp
            | cons b r =>
                have hb := noIacSe_head b r hp
                simp [hb]
          rw [List.cons_append]
          rw [show extractGo (XState.subIac opt) acc
                (IAC :: (p' ++ IAC :: SE :: rest)) =
              extractGo (XState.subIac opt) (acc ++ [IAC])
                (p' ++ IAC :: SE :: rest) from by simp [extractGo]]
          rw [ih (XState.subIac opt) (acc ++ [IAC]) rest (Or.inr rfl) hp' hh]
          simp [List.append_assoc]
        · rw [List.cons_append]
          rw [show extractGo (XState.subIac opt) acc
                (a :: (p' ++ IAC :: SE :: rest)) =
              extractGo (XState.subOpt opt) (acc ++ [a])
                (p' ++ IAC :: SE :: rest) from by simp [extractGo, ha, hane]]
          rw [ih (XState.subOpt opt) (acc ++ [a]) rest (Or.inl rfl) hp'
            (by intro hcon; exact absurd hcon (by simp))]
          simp [List.append_assoc]

theorem extractGo_sub (opt : Nat) (payload rest : List Nat)
    (hm : ¬(opt = MCCP2 ∨ opt = MCCP3)) (hp : noIacSe payload = true) :
    extractGo XState.normal [] (([IAC, SB, opt] ++ payload ++ [IAC, SE]) ++ rest) =
      EventType.subNegotiation ([IAC, SB, opt] ++ payload ++ [IAC, SE])
          Option.none ::
        extractGo XState.normal [] rest := by
  have h1 : (([IAC, SB, opt] ++ payload ++ [IAC, SE]) ++ rest : List Nat) =
      IAC :: SB :: opt :: (payload ++ IAC :: SE :: rest) := by simp
  rw [h1]
  rw [show extractGo XState.normal []
        (IAC :: SB :: opt :: (payload ++ IAC :: SE :: rest)) =
      extractGo (XState.subOpt opt) [IAC, SB, opt]
        (payload ++ IAC :: SE :: rest) from by
    simp [extractGo, IAC, SB, GA, EOR, NOP]]
  rw [extractGo_subPayload opt hm payload (XState.subOpt opt) [IAC, SB, opt] rest
    (Or.inl rfl) hp (by intro hcon; exact absurd hcon (by simp))]

/-! ## Classification of well-formed span sequences -/

theorem wfSpans_cons_wf (s : Span) (r : List Span)
    (h : wfSpans (s :: r) = true) : wfSpan s = true := by
  cases r with
  | nil => exact h
  | cons s' r' =>
      simp only [wfSpans, Bool.and_eq_true] at h
      exact h.1.1

theorem wfSpans_cons_rest (s : Span) (r : List Span)
    (h : wfSpans (s :: r) = true) : wfSpans r = true := by
  cases r with
  | nil => rfl
  | cons s' r' =>
      simp only [wfSpans, Bool.and_eq_true] at h
      exact h.2

theorem wfSpans_mem : ∀ (L : List Span), wfSpans L = true →
    ∀ s ∈ L, wfSpan s = true := by
  intro L
  induction L with
  | nil => intro _ s hs; cases hs
  | cons a L' ih =>
      intro h s hs
      rcases List.mem_cons.mp hs with rfl | hs'
      · exact wfSpans_cons_wf _ _ h
      · exact ih (wfSpans_cons_rest _ _ h) s hs'

theorem wfSpans_append : ∀ (a b : List Span), wfSpans (a ++ b) = true →
    wfSpans a = true ∧ wfSpans b = true := by
  intro a
  induction a with
  | nil => intro b h; exact ⟨rfl, h⟩
  | cons s a' ih =>
      intro b h
      have hs : wfSpan s = true := wfSpans_cons_wf _ _ h
      have hr : wfSpans (a' ++ b) = true := wfSpans_cons_rest _ _ h
      obtain ⟨ha', hb⟩ := ih b hr
      refine ⟨?_, hb⟩
      cases a' with
      | nil => exact hs
      | cons s2 a'' =>
          simp only [List.cons_append] at h
          simp only [wfSpans, Bool.and_eq_true] at h ⊢
          exact ⟨⟨h.1.1, h.1.2⟩, ha'⟩

theorem spanBytes_head (s : Span) (h : isData s = false) :
    ∃ tl, spanBytes s = IAC :: tl := by
  cases s with
  | data d => simp [isData] at h
  | cmd c => exact ⟨[c], rfl⟩
  | neg c o => exact ⟨[c, o], rfl⟩
  | sub opt payload =>
      exact ⟨SB :: opt :: (payload ++ [IAC, SE]), by simp [spanBytes]⟩

theorem extract_flat : ∀ (L : List Span), wfSpans L = true →
    extractGo XState.normal [] (flat L) = L.map toET := by
  intro L
  induction L with
  | nil => intro _; rfl
  | cons s L' ih =>
      intro h
      have hs : wfSpan s = true := wfSpans_cons_wf _ _ h
      have hr : wfSpans L' = true := wfSpans_cons_rest _ _ h
      have ihr := ih hr
      cases s with
      | cmd c =>
          have hc : c = GA ∨ c = EOR ∨ c = NOP := by
            simp only [wfSpan, Bool.or_eq_true, beq_iff_eq] at hs
            tauto
          simp only [flat, spanBytes]
          rw [show ([IAC, c] ++ flat L' : List Nat) = IAC :: c :: flat L' from rfl]
          rw [extractGo_cmd c hc (flat L'), ihr]
          simp [toET]
      | neg c o =>
          simp only [wfSpan, Bool.and_eq_true, Bool.not_eq_true',
            beq_eq_false_iff_ne, ne_eq] at hs
          obtain ⟨⟨⟨⟨h1, h2⟩, h3⟩, h4⟩, h5⟩ := hs
          simp only [flat, spanBytes]
          rw [show ([IAC, c, o] ++ flat L' : List Nat) =
              IAC :: c :: o :: flat L' from rfl]
          rw [extractGo_neg c o (flat L') h1 h2 h3 h4 h5, ihr]
          simp [toET]
      | sub opt payload =>
          simp only [wfSpan, Bool.and_eq_true, Bool.not_eq_true',
            beq_eq_false_iff_ne, ne_eq] at hs
          obtain ⟨⟨h86, h87⟩, hp⟩ := hs
          have hm : ¬(opt = MCCP2 ∨ opt = MCCP3) := by tauto
          simp only [flat, spanBytes]
          rw [extractGo_sub opt payload (flat L') hm hp, ihr]
          simp [toET]
      | data d =>
          simp only [wfSpan, Bool.and_eq_true, Bool.not_eq_true'] at hs
          obtain ⟨hne, hall⟩ := hs
          have hd : d ≠ [] := by
            intro hcon
            rw [hcon] at hne
            simp at hne
          simp only [flat, spanBytes]
          rw [extractGo_data d [] (flat L') hall]
          simp only [List.nil_append]
          cases L' with
          | nil =>
              simp only [flat]
              simp [extractGo, hd, toET]
          | cons s2 L'' =>
              have hs2 : isData s2 = false := by
                simp only [wfSpans, Bool.and_eq_true, Bool.not_eq_true'] at h
                have h21 := h.1.2
                simp only [isData, Bool.true_and] at h21
                exact h21
              obtain ⟨tl, htl⟩ := spanBytes_head s2 hs2
              have hflat : flat (s2 :: L'') = IAC :: (tl ++ flat L'') := by
                simp [flat, htl]
              rw [hflat]
              rw [show extractGo XState.normal d (IAC :: (tl ++ flat L'')) =
                  EventType.none d ::
                    extractGo XState.iacSt [IAC] (tl ++ flat L'') from by
                simp [extractGo, hd]]
              rw [hflat] at ihr
              rw [show extractGo XState.iacSt [IAC] (tl ++ flat L'') =
                  extractGo XState.normal [] (IAC :: (tl ++ flat L'')) from by
                simp [extractGo]]
              rw [ihr]
              simp [toET]

/-! ## C1: escape/unescape round trip -/

theorem unescapeGo_escape (data : List Nat) :
    unescapeGo UState.normal (escape_iac data) = data := by
  induction data with
  | nil => rfl
  | cons b rest ih =>
      by_cases hb : b = IAC
      · simp [escape_iac, hb, unescapeGo, IAC, ih]
      · simp [escape_iac, hb, unescapeGo, ih]

/-- C1: for every byte sequence `x`, `unescape_iac (escape_iac x) = x`;
since the statement is universally quantified it covers in particular the
empty sequence, sequences with no 255 bytes, and runs of 255 bytes of any
length, odd or even. -/
theorem unescape_escape_roundtrip (data : List Nat) :
    unescape_iac (escape_iac data) = data :=
  unescapeGo_escape data

/-! ## C9: reset_states -/

/-- C9: `reset_states` clears the local-enabled and remote-enabled bits of
every entry and leaves both support bits of every entry unchanged. -/
theorem reset_states_spec (t : Table) (o : Nat) :
    local_enabled (reset_states t o) = false ∧
    remote_enabled (reset_states t o) = false ∧
    local_support (reset_states t o) = local_support (t o) ∧
    remote_support (reset_states t o) = remote_support (t o) := by
  refine ⟨?_, ?_, ?_, ?_⟩
  · have h : t o &&& 251 &&& 247 &&& 4 = 0 := by
      rw [land_land, land_land]
      have hc : (251 &&& (247 &&& 4) : Nat) = 0 := by decide
      rw [hc, land_zero]
    simp [reset_states, clear_local_enabled, clear_remote_enabled,
      local_enabled, LOCAL_STATE, h]
  · have h : t o &&& 251 &&& 247 &&& 8 = 0 := by
      rw [land_land, land_land]
      have hc : (251 &&& (247 &&& 8) : Nat) = 0 := by decide
      rw [hc, land_zero]
    simp [reset_states, clear_local_enabled, clear_remote_enabled,
      remote_enabled, REMOTE_STATE, h]
  · have h : t o &&& 251 &&& 247 &&& 1 = t o &&& 1 := by
      rw [land_land, land_land]
      have hc : (251 &&& (247 &&& 1) : Nat) = 1 := by decide
      rw [hc]
    simp [reset_states, clear_local_enabled, clear_remote_enabled,
      local_support, ENABLED_LOCAL, h]
  · have h : t o &&& 251 &&& 247 &&& 2 = t o &&& 2 := by
      rw [land_land, land_land]
      have hc : (251 &&& (247 &&& 2) : Nat) = 2 := by decide
      rw [hc]
    simp [reset_states, clear_local_enabled, clear_remote_enabled,
      remote_support, ENABLED_REMOTE, h]

/-! ## C8: from_options masking -/

theorem from_options_go_notmem :
    ∀ (l : List (Nat × Nat)) (t : Table) (o : Nat), o ∉ l.map Prod.fst →
      l.foldl (fun t p => tableSet t p.1 (p.2 &&& DEFINED_FLAGS)) t o = t o := by
  intro l
  induction l with
  | nil => intro t o _; rfl
  | cons a r ih =>
      intro t o h
      simp only [List.map_cons, List.mem_cons] at h
      push_neg at h
      rw [List.foldl_cons, ih _ o h.2]
      simp [tableSet, h.1]

theorem from_options_go_masked :
    ∀ (l : List (Nat × Nat)) (t : Table),
      (∀ x, t x &&& DEFINED_FLAGS = t x) → ∀ o,
      (l.foldl (fun t p => tableSet t p.1 (p.2 &&& DEFINED_FLAGS)) t) o
          &&& DEFINED_FLAGS =
        (l.foldl (fun t p => tableSet t p.1 (p.2 &&& DEFINED_FLAGS)) t) o := by
  intro l
  induction l with
  | nil => intro t ht o; exact ht o
  | cons a r ih =>
      intro t ht o
      rw [List.foldl_cons]
      apply ih
      intro x
      simp only [tableSet]
      by_cases hx : x = a.1
      · simp only [hx, eq_self_iff_true, if_true]
        rw [land_land]
        have hc : (DEFINED_FLAGS &&& DEFINED_FLAGS : Nat) = DEFINED_FLAGS := by
          decide
        rw [hc]
      · simp only [if_neg hx]
        exact ht x

/-- C8 (amended): every entry of a `from_options` table has zero bits
outside the four defined flags, and the entry for `o` equals `v & 0x0F`
when `(o, v)` is the last pair for `o` in the list (in particular when
`o` occurs exactly once). -/
theorem from_options_masks_entry (l1 l2 : List (Nat × Nat)) (o v : Nat)
    (h : o ∉ l2.map Prod.fst) :
    from_options (l1 ++ (o, v) :: l2) o = v &&& DEFINED_FLAGS ∧
    (∀ (l : List (Nat × Nat)) (x : Nat),
      from_options l x &&& DEFINED_FLAGS = from_options l x) := by
  constructor
  · unfold from_options
    rw [List.foldl_append, List.foldl_cons, from_options_go_notmem l2 _ o h]
    simp [tableSet]
  · intro l x
    unfold from_options
    apply from_options_go_masked
    intro y
    simp [emptyTable, DEFINED_FLAGS]

theorem from_options_masks_entry_witness :
    (0 ∉ (([] : List (Nat × Nat)).map Prod.fst)) ∧
    (from_options ([] ++ (0, 255) :: []) 0 = 255 &&& DEFINED_FLAGS ∧
     (∀ (l : List (Nat × Nat)) (x : Nat),
       from_options l x &&& DEFINED_FLAGS = from_options l x)) :=
  ⟨by decide, from_options_masks_entry [] [] 0 255 (by decide)⟩

/-- C8 counterexample: the list `[(0, 1), (0, 2)]` contains the pair
`(0, 1)`, yet the entry for option 0 is `2`, not `1 & 0x0F`: a later pair
for the same option overrides an earlier one. -/
theorem from_options_duplicate_counterexample :
    ((0, 1) ∈ ([(0, 1), (0, 2)] : List (Nat × Nat))) ∧
    from_options [(0, 1), (0, 2)] 0 ≠ 1 &&& DEFINED_FLAGS := by
  refine ⟨by decide, ?_⟩
  intro h
  have h2 : from_options [(0, 1), (0, 2)] 0 = 2 := by decide
  rw [h2] at h
  exact absurd h (by decide)

/-! ## C5: inbound DO with local-support clear or local-enabled set -/

/-- C5 (amended): an inbound DO when local-support is clear emits exactly
`[DataSend (IAC WONT o)]` with no table mutation; but an inbound DO when
local-support and local-enabled are both set emits no event at all (the
code's second DO guard requires `!support || !enabled`, so the
support-and-enabled case falls through to the empty default). -/
theorem process_negotiation_do_guards (t : Table) (o : Nat) :
    (local_support (t o) = false →
      process_negotiation t DO o = (t, [Event.dataSend [IAC, WONT, o]])) ∧
    (local_support (t o) = true → local_enabled (t o) = true →
      process_negotiation t DO o = (t, [])) := by
  constructor
  · intro h
    simp [process_negotiation, WILL, WONT, DO, DONT, h]
  · intro h1 h2
    simp [process_negotiation, WILL, WONT, DO, DONT, h1, h2]

theorem process_negotiation_do_guards_witness :
    local_support (from_options [] 0) = false ∧
    process_negotiation (from_options []) DO 0 =
      (from_options [], [Event.dataSend [IAC, WONT, 0]]) :=
  ⟨by decide, (process_negotiation_do_guards (from_options []) 0).1 (by decide)⟩

/-- C5 counterexample: with option 0 locally supported and locally
enabled (entry value 5), an inbound DO emits no event at all, not the
claimed single WONT reply. -/
theorem do_enabled_no_event_counterexample :
    local_support ((from_options [(0, 5)]) 0) = true ∧
    local_enabled ((from_options [(0, 5)]) 0) = true ∧
    (process_negotiation (from_options [(0, 5)]) DO 0).2 = [] := by
  refine ⟨by decide, by decide, ?_⟩
  decide

/-! ## C6: idempotence of the outbound helpers -/

/-- C6 (amended): for `_will`, `_wont` and `_do`, a second consecutive call
on the same option returns no event and leaves the parser unchanged; but
`_dont` never mutates the table, so a second `_dont` returns exactly what
the first returned (an event again whenever remote-enabled is set). -/
theorem helpers_second_call (p : Parser) (o : Nat) :
    _will ((_will p o).1) o = ((_will p o).1, Option.none) ∧
    _wont ((_wont p o).1) o = ((_wont p o).1, Option.none) ∧
    _do ((_do p o).1) o = ((_do p o).1, Option.none) ∧
    (_dont p o).1 = p ∧
    _dont ((_dont p o).1) o = _dont p o := by
  refine ⟨?_, ?_, ?_, ?_, ?_⟩
  · by_cases hc : (!local_support (p.options o) || local_enabled (p.options o)) = true
    · simp [_will, hc]
    · rw [Bool.not_eq_true] at hc
      simp [_will, hc, tableSet, local_enabled_set_local]
  · by_cases hc : (!local_enabled (p.options o)) = true
    · simp [_wont, hc]
    · rw [Bool.not_eq_true] at hc
      simp [_wont, hc, tableSet, local_enabled_clear_local]
  · by_cases hc : (!remote_support (p.options o) || remote_enabled (p.options o)) = true
    · simp [_do, hc]
    · rw [Bool.not_eq_true] at hc
      simp [_do, hc, tableSet, remote_enabled_set_remote]
  · by_cases hc : (!remote_enabled (p.options o)) = true
    · simp [_dont, hc]
    · rw [Bool.not_eq_true] at hc
      simp [_dont, hc]
  · by_cases hc : (!remote_enabled (p.options o)) = true
    · simp [_dont, hc]
    · rw [Bool.not_eq_true] at hc
      simp [_dont, hc]

/-- C6 counterexample: with option 0 remote-enabled (entry value 8), two
consecutive `_dont` calls both return the DONT event; the second call
does not return `None`. -/
theorem dont_twice_counterexample :
    remote_enabled ((from_options [(0, 8)]) 0) = true ∧
    (_dont (withSupport (from_options [(0, 8)])) 0).2 =
      Option.some (Event.dataSend [IAC, DONT, 0]) ∧
    (_dont ((_dont (withSupport (from_options [(0, 8)])) 0).1) 0).2 =
      Option.some (Event.dataSend [IAC, DONT, 0]) := by
  refine ⟨by decide, by decide, by decide⟩

/-! ## C4: inbound WILL with remote-support set and remote-enabled clear -/

/-- C4: an inbound WILL for an option whose entry has remote-support set
and remote-enabled clear sets remote-enabled and emits the DO reply
followed by the Negotiation event. -/
theorem receive_will_enables_remote (t : Table) (o : Nat)
    (hrs : remote_support (t o) = true) (hre : remote_enabled (t o) = false) :
    (receive (withSupport t) [IAC, WILL, o]).2 =
      [Event.dataSend [IAC, DO, o], Event.negotiation WILL o] ∧
    remote_enabled ((receive (withSupport t) [IAC, WILL, o]).1.options o) = true := by
  constructor
  · simp [receive, process, withSupport, extractGo, processEvents, processOne,
      process_negotiation, IAC, WILL, SB, SE, GA, EOR, NOP, DO, DONT, WONT,
      MCCP2, MCCP3, hrs, hre]
  · simp [receive, process, withSupport, extractGo, processEvents, processOne,
      process_negotiation, IAC, WILL, SB, SE, GA, EOR, NOP, DO, DONT, WONT,
      MCCP2, MCCP3, hrs, hre, tableSet, remote_enabled_set_remote]

/-! ## Interpretation of classified spans -/

theorem getD_len_append (l1 l2 : List Nat) (i d : Nat) :
    (l1 ++ l2).getD (l1.length + i) d = l2.getD i d := by
  induction l1 with
  | nil => simp
  | cons a r ih =>
      simp only [List.cons_append, List.length_cons]
      rw [show r.length + 1 + i = (r.length + i) + 1 from by omega,
        List.getD_cons_succ]
      exact ih

theorem take_len_append (l1 l2 : List Nat) : (l1 ++ l2).take l1.length = l1 := by
  induction l1 with
  | nil => simp
  | cons a r ih => simp [ih]

theorem processOne_data (p : Parser) (d : List Nat) (hne : d ≠ [])
    (hall : d.all (fun b => !(b == IAC)) = true) :
    processOne p (EventType.none d) = processData p d := by
  rcases d with _ | ⟨c, r⟩
  · exact absurd rfl hne
  · have hc : ¬ (c = IAC) := by
      rw [List.all_cons, Bool.and_eq_true] at hall
      have h1 := hall.1
      rw [Bool.not_eq_true', beq_eq_false_iff_ne] at h1
      exact h1
    rcases r with _ | ⟨c2, r2⟩
    · simp [processOne, hc]
    · rcases r2 with _ | ⟨c3, r3⟩
      · simp [processOne, hc]
      · simp [processOne, hc]

theorem processOne_subSpan (p : Parser) (opt : Nat) (payload : List Nat)
    (remaining : Option (List Nat)) :
    processOne p (EventType.subNegotiation
        ([IAC, SB, opt] ++ payload ++ [IAC, SE]) remaining) =
      if local_support (p.options opt) = true ∧
          local_enabled (p.options opt) = true then
        (p, Event.subnegotiation opt payload ::
             (match remaining with
              | Option.some rbuf => [Event.decompressImmediate rbuf]
              | Option.none => []))
      else (p, []) := by
  have hA : ([IAC, SB, opt] ++ payload).length = payload.length + 3 := by
    rw [List.length_append]
    simp only [List.length_cons, List.length_nil]
    omega
  have hlen : ([IAC, SB, opt] ++ payload ++ [IAC, SE]).length =
      payload.length + 5 := by
    rw [List.length_append, hA]
    rfl
  have hpen : ([IAC, SB, opt] ++ payload ++ [IAC, SE]).getD
      (([IAC, SB, opt] ++ payload ++ [IAC, SE]).length - 2) 0 = IAC := by
    rw [hlen, show payload.length + 5 - 2 =
      ([IAC, SB, opt] ++ payload).length + 0 from by rw [hA]; omega]
    rw [getD_len_append]
    rfl
  have hlast : ([IAC, SB, opt] ++ payload ++ [IAC, SE]).getD
      (([IAC, SB, opt] ++ payload ++ [IAC, SE]).length - 1) 0 = SE := by
    rw [hlen, show payload.length + 5 - 1 =
      ([IAC, SB, opt] ++ payload).length + 1 from by rw [hA]; omega]
    rw [getD_len_append]
    rfl
  have hopt : ([IAC, SB, opt] ++ payload ++ [IAC, SE]).getD 2 0 = opt := rfl
  have hdrop : ([IAC, SB, opt] ++ payload ++ [IAC, SE]).drop 3 =
      payload ++ [IAC, SE] := rfl
  have hidx : ([IAC, SB, opt] ++ payload ++ [IAC, SE]).length - 2 - 3 =
      payload.length := by
    rw [hlen]
    omega
  simp only [processOne]
  rw [if_pos ⟨hpen, hlast⟩, hopt, hdrop, hidx, take_len_append]
  by_cases hc : local_support (p.options opt) = true ∧
      local_enabled (p.options opt) = true
  · have h32 : 3 ≤ ([IAC, SB, opt] ++ payload ++ [IAC, SE]).length - 2 := by
      rw [hlen]
      omega
    rw [if_pos ⟨hc.1, hc.2, h32⟩, if_pos hc]
  · rw [if_neg (by intro hcon; exact hc ⟨hcon.1, hcon.2.1⟩), if_neg hc]

theorem processOne_toET_buffer (p : Parser) (s : Span) (hw : wfSpan s = true) :
    (processOne p (toET s)).1.buffer = p.buffer := by
  cases s with
  | data d =>
      rw [wfSpan, Bool.and_eq_true] at hw
      have hd : d ≠ [] := by
        have h1 := hw.1
        rw [Bool.not_eq_true', beq_eq_false_iff_ne] at h1
        exact h1
      rw [show toET (Span.data d) = EventType.none d from rfl]
      rw [processOne_data p d hd hw.2]
      simp only [processData]
      by_cases hdf : p.deframe_lines = true
      · simp [hdf]
      · rw [Bool.not_eq_true] at hdf
        simp [hdf]
  | cmd c =>
      simp only [toET, processOne]
      simp only [List.head?_cons, List.getElem?_cons_succ, List.getElem?_cons_zero,
        List.getElem?_nil]
      simp only [eq_self_iff_true, if_true]
      split <;> rfl
  | neg c o =>
      simp [toET, processOne]
  | sub opt payload =>
      rw [show toET (Span.sub opt payload) = EventType.subNegotiation
          ([IAC, SB, opt] ++ payload ++ [IAC, SE]) Option.none from rfl]
      rw [processOne_subSpan]
      by_cases hc : local_support (p.options opt) = true ∧
          local_enabled (p.options opt) = true
      · rw [if_pos hc]
      · rw [if_neg hc]

theorem processEvents_append (p : Parser) (A B : List EventType) :
    processEvents p (A ++ B) =
      ((processEvents (processEvents p A).1 B).1,
       (processEvents p A).2 ++ (processEvents (processEvents p A).1 B).2) := by
  induction A generalizing p with
  | nil => simp [processEvents]
  | cons et A' ih =>
      simp only [List.cons_append, processEvents, List.append_eq]
      rw [ih]
      simp [List.append_assoc]

theorem processEvents_buffer : ∀ (L : List Span) (p : Parser),
    (∀ s ∈ L, wfSpan s = true) →
    (processEvents p (L.map toET)).1.buffer = p.buffer := by
  intro L
  induction L with
  | nil => intro p _; rfl
  | cons s L' ih =>
      intro p h
      simp only [List.map_cons, processEvents]
      rw [ih _ (fun x hx => h x (List.mem_cons_of_mem _ hx))]
      exact processOne_toET_buffer p s (h s (List.mem_cons_self _ _))

theorem parser_buffer_eta (p : Parser) (h : p.buffer = []) :
    ({ p with buffer := [] } : Parser) = p := by
  cases p
  simp_all

theorem receive_empty_buffer (p : Parser) (hp : p.buffer = []) (d : List Nat) :
    receive p d = processEvents p (extractGo XState.normal [] d) := by
  cases p with
  | mk t df b lb =>
      simp only at hp
      subst hp
      simp [receive, process]

theorem receive_will_enables_remote_witness :
    local_support ((from_options [(86, 3)]) 86) = true ∧
    remote_support ((from_options [(86, 3)]) 86) = true ∧
    local_enabled ((from_options [(86, 3)]) 86) = false ∧
    remote_enabled ((from_options [(86, 3)]) 86) = false ∧
    ((receive (withSupport (from_options [(86, 3)])) [IAC, WILL, 86]).2 =
       [Event.dataSend [IAC, DO, 86], Event.negotiation WILL 86] ∧
     remote_enabled
       ((receive (withSupport (from_options [(86, 3)])) [IAC, WILL, 86]).1.options
         86) = true) :=
  ⟨by decide, by decide, by decide, by decide,
   receive_will_enables_remote (from_options [(86, 3)]) 86 (by decide) (by decide)⟩

/-! ## C2: fragmentation -/

/-- C2 (amended): for a complete, valid sequence — a concatenation of
well-formed spans (IAC-free nonempty data runs, 2-byte commands, 3-byte
negotiations, terminated non-MCCP subnegotiations, no two adjacent data
runs) — feeding the bytes in one `receive` call produces the same event
sequence as splitting them at a span boundary across two calls. -/
theorem receive_fragmentation_spans (t : Table) (L1 L2 : List Span)
    (h : wfSpans (L1 ++ L2) = true) :
    (receive (withSupport t) (flat (L1 ++ L2))).2 =
      (receive (withSupport t) (flat L1)).2 ++
        (receive ((receive (withSupport t) (flat L1)).1) (flat L2)).2 := by
  obtain ⟨h1, h2⟩ := wfSpans_append L1 L2 h
  rw [receive_empty_buffer (withSupport t) rfl (flat (L1 ++ L2)),
    receive_empty_buffer (withSupport t) rfl (flat L1)]
  rw [extract_flat (L1 ++ L2) h, extract_flat L1 h1]
  have hbuf : (processEvents (withSupport t) (L1.map toET)).1.buffer = [] := by
    rw [processEvents_buffer L1 (withSupport t) (wfSpans_mem L1 h1)]
    rfl
  rw [receive_empty_buffer _ hbuf (flat L2), extract_flat L2 h2]
  rw [List.map_append, processEvents_append]

theorem receive_fragmentation_spans_witness :
    wfSpans ([Span.neg WILL 86] ++ [Span.data [65]]) = true ∧
    (receive (withSupport (from_options [(86, 3)]))
        (flat ([Span.neg WILL 86] ++ [Span.data [65]]))).2 =
      (receive (withSupport (from_options [(86, 3)])) (flat [Span.neg WILL 86])).2 ++
        (receive ((receive (withSupport (from_options [(86, 3)]))
            (flat [Span.neg WILL 86])).1) (flat [Span.data [65]])).2 :=
  ⟨by decide,
   receive_fragmentation_spans (from_options [(86, 3)])
     [Span.neg WILL 86] [Span.data [65]] (by decide)⟩

/-- C2 counterexample: the complete, valid sequence `[65, 66]` (plain
data, no MCCP involvement) split at position 1 yields
`[DataReceive [65], DataReceive [66]]` across the two calls, while the
single call yields `[DataReceive [65, 66]]` — the event sequences differ. -/
theorem fragmentation_counterexample :
    wfSpans [Span.data [65, 66]] = true ∧
    flat [Span.data [65, 66]] = [65, 66] ∧
    (receive (withSupport emptyTable) [65, 66]).2 ≠
      (receive (withSupport emptyTable) [65]).2 ++
        (receive ((receive (withSupport emptyTable) [65]).1) [66]).2 := by
  refine ⟨by decide, by decide, by decide⟩

/-! ## C3: incomplete trailing spans -/

/-- C3 (amended): an input ending in an unterminated subnegotiation emits
nothing for that span and retains its raw bytes in the unparsed-input
buffer, and a subsequent `receive` supplying the remaining bytes yields
the complete subnegotiation span (emitted iff the option is locally
supported and enabled).  But a lone trailing IAC is silently dropped (the
buffer stays empty), and an IAC followed by a negotiation command missing
its option byte is consumed and emitted as a 2-byte Iac command event. -/
theorem receive_incomplete_spans (t : Table) (opt : Nat)
    (h86 : opt ≠ MCCP2) (h87 : opt ≠ MCCP3) :
    receive (withSupport t) [IAC, SB, opt] =
      ({ withSupport t with buffer := [IAC, SB, opt] }, []) ∧
    (receive ({ withSupport t with buffer := [IAC, SB, opt] } : Parser)
        [1, IAC, SE]).2 =
      (if local_support (t opt) = true ∧ local_enabled (t opt) = true then
        [Event.subnegotiation opt [1]]
      else []) ∧
    receive (withSupport t) [IAC] = (withSupport t, []) ∧
    (∀ c, c = WILL ∨ c = WONT ∨ c = DO ∨ c = DONT →
      receive (withSupport t) [IAC, c] = (withSupport t, [Event.iac c])) := by
  have hm : ¬(opt = MCCP2 ∨ opt = MCCP3) := by tauto
  refine ⟨?_, ?_, ?_, ?_⟩
  · rw [receive_empty_buffer (withSupport t) rfl]
    have hext : extractGo XState.normal [] [IAC, SB, opt] =
        [EventType.subNegotiation [IAC, SB, opt] Option.none] := by
      simp [extractGo, IAC, SB, GA, EOR, NOP]
    rw [hext]
    simp only [processEvents]
    have hone : processOne (withSupport t)
        (EventType.subNegotiation [IAC, SB, opt] Option.none) =
        ({ withSupport t with buffer := [IAC, SB, opt] }, []) := by
      have hgd : ([IAC, SB, opt] : List Nat).getD
          (([IAC, SB, opt] : List Nat).length - 2) 0 = SB := rfl
      simp only [processOne]
      rw [if_neg (fun hcon =>
        absurd (hgd.symm.trans hcon.1) (by decide : ¬(SB = IAC)))]
      simp [withSupport]
    rw [hone]
    simp [processEvents]
  · have hrec : receive ({ withSupport t with buffer := [IAC, SB, opt] } : Parser)
        [1, IAC, SE] =
        processEvents (withSupport t)
          (extractGo XState.normal [] ([IAC, SB, opt] ++ [1, IAC, SE])) := by
      simp [receive, process, withSupport]
    rw [hrec]
    have hx : ([IAC, SB, opt] ++ [1, IAC, SE] : List Nat) =
        ([IAC, SB, opt] ++ [1] ++ [IAC, SE]) ++ [] := by simp
    rw [hx, extractGo_sub opt [1] [] hm (by rfl)]
    rw [show extractGo XState.normal [] ([] : List Nat) = [] from rfl]
    simp only [processEvents]
    rw [processOne_subSpan]
    by_cases hc : local_support (t opt) = true ∧ local_enabled (t opt) = true
    · rw [if_pos (by simpa [withSupport] using hc), if_pos hc]
      simp
    · rw [if_neg (by simpa [withSupport] using hc), if_neg hc]
      simp
  · rw [receive_empty_buffer (withSupport t) rfl]
    have hext : extractGo XState.normal [] [IAC] = [EventType.none [IAC]] := by
      simp [extractGo, IAC]
    rw [hext]
    simp [processEvents, processOne, IAC]
  · intro c hc
    rcases hc with h | h | h | h <;> subst h <;>
      · rw [receive_empty_buffer (withSupport t) rfl]
        simp [extractGo, processEvents, processOne, IAC, SB, SE, GA, EOR, NOP,
          WILL, WONT, DO, DONT]

theorem receive_incomplete_spans_witness :
    ((201 : Nat) ≠ MCCP2 ∧ (201 : Nat) ≠ MCCP3) ∧
    (receive (withSupport (from_options [(201, 5)])) [IAC, SB, 201] =
      ({ withSupport (from_options [(201, 5)]) with buffer := [IAC, SB, 201] }, []) ∧
    (receive ({ withSupport (from_options [(201, 5)]) with
        buffer := [IAC, SB, 201] } : Parser) [1, IAC, SE]).2 =
      (if local_support (from_options [(201, 5)] 201) = true ∧
          local_enabled (from_options [(201, 5)] 201) = true then
        [Event.subnegotiation 201 [1]]
      else []) ∧
    receive (withSupport (from_options [(201, 5)])) [IAC] =
      (withSupport (from_options [(201, 5)]), []) ∧
    (∀ c, c = WILL ∨ c = WONT ∨ c = DO ∨ c = DONT →
      receive (withSupport (from_options [(201, 5)])) [IAC, c] =
        (withSupport (from_options [(201, 5)]), [Event.iac c]))) :=
  ⟨⟨by decide, by decide⟩,
   receive_incomplete_spans (from_options [(201, 5)]) 201 (by decide) (by decide)⟩

/-- C3 counterexample: a lone trailing IAC is not retained: after
`receive [255]` the unparsed-input buffer is empty and no event was
emitted, and a subsequent `receive [251, 86]` yields a plain
`DataReceive` event instead of the completed negotiation. -/
theorem lone_iac_dropped_counterexample :
    (receive (withSupport emptyTable) [IAC]).2 = [] ∧
    (receive (withSupport emptyTable) [IAC]).1.buffer = [] ∧
    (receive ((receive (withSupport emptyTable) [IAC]).1) [WILL, 86]).2 =
      [Event.dataReceive [WILL, 86]] := by
  refine ⟨by decide, by decide, by decide⟩

/-! ## C7: subnegotiation validation gate -/

/-- C7 (amended): a terminated non-MCCP inbound subnegotiation span
produces a Subnegotiation event iff the entry for its option has
local-support and local-enabled both set (the length guard `len - 2 >= 3`
is satisfied by every terminated span, so even an empty payload is
emitted); otherwise the span is silently dropped with no event. -/
theorem receive_subnegotiation_gate (t : Table) (opt : Nat) (payload : List Nat)
    (h86 : opt ≠ MCCP2) (h87 : opt ≠ MCCP3) (hp : noIacSe payload = true) :
    (receive (withSupport t) ([IAC, SB, opt] ++ payload ++ [IAC, SE])).2 =
      if local_support (t opt) = true ∧ local_enabled (t opt) = true then
        [Event.subnegotiation opt payload]
      else [] := by
  have hm : ¬(opt = MCCP2 ∨ opt = MCCP3) := by tauto
  rw [receive_empty_buffer (withSupport t) rfl]
  have hx : ([IAC, SB, opt] ++ payload ++ [IAC, SE] : List Nat) =
      ([IAC, SB, opt] ++ payload ++ [IAC, SE]) ++ [] := (List.append_nil _).symm
  rw [hx, extractGo_sub opt payload [] hm hp]
  rw [show extractGo XState.normal [] ([] : List Nat) = [] from rfl]
  simp only [processEvents]
  rw [processOne_subSpan]
  by_cases hc : local_support (t opt) = true ∧ local_enabled (t opt) = true
  · rw [if_pos (by simpa [withSupport] using hc), if_pos hc]
    simp
  · rw [if_neg (by simpa [withSupport] using hc), if_neg hc]
    simp

theorem receive_subnegotiation_gate_witness :
    ((201 : Nat) ≠ MCCP2 ∧ (201 : Nat) ≠ MCCP3 ∧ noIacSe [1] = true) ∧
    (receive (withSupport emptyTable) ([IAC, SB, 201] ++ [1] ++ [IAC, SE])).2 =
      (if local_support (emptyTable 201) = true ∧
          local_enabled (emptyTable 201) = true then
        [Event.subnegotiation 201 [1]]
      else []) :=
  ⟨⟨by decide, by decide, by decide⟩,
   receive_subnegotiation_gate emptyTable 201 [1] (by decide) (by decide)
     (by decide)⟩

/-- C7 counterexample: with option 201 locally supported and enabled, the
5-byte span `IAC SB 201 IAC SE` — whose payload has zero content bytes —
still produces a Subnegotiation event with an empty buffer, contradicting
the claimed at-least-one-content-byte requirement. -/
theorem empty_payload_subnegotiation_counterexample :
    local_support ((from_options [(201, 5)]) 201) = true ∧
    local_enabled ((from_options [(201, 5)]) 201) = true ∧
    (receive (withSupport (from_options [(201, 5)])) [IAC, SB, 201, IAC, SE]).2 =
      [Event.subnegotiation 201 []] := by
  refine ⟨by decide, by decide, by decide⟩

/-! ## C10: line accumulation without deframing -/

/-- C10: with line-deframing disabled, a receive call classifying plain
(non-IAC) data both emits `DataReceive` with those bytes and appends the
same bytes to the line-accumulation buffer, so a later `flush_line`
returns the accumulated bytes even though deframing was never enabled;
the line buffer grows by every data span received (the statement holds
for an arbitrary previous line-buffer content `lb`). -/
theorem receive_data_accumulates_line (t : Table) (lb d : List Nat)
    (hne : d ≠ []) (hall : d.all (fun b => !(b == IAC)) = true) :
    receive (Parser.mk t false [] lb) d =
      (Parser.mk t false [] (lb ++ d), [Event.dataReceive d]) ∧
    (flush_line (Parser.mk t false [] (lb ++ d))).1 = Option.some (lb ++ d) := by
  constructor
  · rw [receive_empty_buffer _ rfl]
    have hext : extractGo XState.normal [] d = [EventType.none d] := by
      have h1 := extractGo_data d [] [] hall
      rw [List.append_nil] at h1
      rw [h1]
      simp [extractGo, hne]
    rw [hext]
    simp only [processEvents]
    rw [processOne_data _ d hne hall]
    simp [processData]
  · have hlb : lb ++ d ≠ [] := by
      intro hcon
      exact hne (List.append_eq_nil.mp hcon).2
    simp [flush_line, hlb]

theorem receive_data_accumulates_line_witness :
    (([65] : List Nat) ≠ [] ∧
      ([65] : List Nat).all (fun b => !(b == IAC)) = true) ∧
    (receive (Parser.mk emptyTable false [] [72]) [65] =
      (Parser.mk emptyTable false [] ([72] ++ [65]), [Event.dataReceive [65]]) ∧
    (flush_line (Parser.mk emptyTable false [] ([72] ++ [65]))).1 =
      Option.some ([72] ++ [65])) :=
  ⟨⟨by decide, by decide⟩,
   receive_data_accumulates_line emptyTable [72] [65] (by decide) (by decide)⟩

end Mudtelnet
